import Mathlib

/-!
Verification of the albumseq arrangement-evaluation engine (src/lib.rs).

The Rust source works with `f64` durations; the embedding models `Duration`
as `ℚ`, an exact ordered field, since every operation the code performs on
durations is addition and order comparison.  `usize` values (side counts,
constraint weights, scores) are modelled as `ℕ`; no claim depends on
machine-word overflow.
-/

namespace Albumseq

/-- Duration type (seconds; `f64` in the source, modelled exactly as `ℚ`). -/
abbrev Duration := ℚ

/-- A titled, timed item to be arranged (struct `Track`). -/
structure Track where
  title : String
  duration : Duration
deriving DecidableEq, Repr

/-- A tracklist: ordered list of tracks (struct `Tracklist(Vec<Track>)`). -/
abbrev Tracklist := List Track

/-- `Tracklist::duration`: total duration of the list. -/
def tracklistDuration (tl : Tracklist) : Duration :=
  (tl.map Track.duration).sum

/-- Physical medium with sides and max duration per side (struct `Medium`). -/
structure Medium where
  sides : ℕ
  max_duration_per_side : Duration
deriving DecidableEq, Repr

/-- The greedy loop of `Medium::fits`: walks the durations keeping
`sides_used` (starting at 1) and `current_sum` (starting at 0); a track
longer than the per-side capacity fails immediately; a track that does not
fit on the current side opens a new side, failing when `sides_used` would
exceed `sides`. -/
def fitsLoop (max : Duration) (sides : ℕ) :
    List Duration → ℕ → Duration → Bool
  | [], _, _ => true
  | d :: ds, sides_used, current_sum =>
    if max < d then false
    else if current_sum + d ≤ max then
      fitsLoop max sides ds sides_used (current_sum + d)
    else if sides < sides_used + 1 then false
    else fitsLoop max sides ds (sides_used + 1) d

/-- `Medium::fits`: fast-reject when the total duration exceeds
`sides * max_duration_per_side`, then run the greedy first-fit pass. -/
def Medium.fits (m : Medium) (tl : Tracklist) : Bool :=
  let durations := tl.map Track.duration
  if (m.sides : ℚ) * m.max_duration_per_side < tracklistDuration tl then false
  else fitsLoop m.max_duration_per_side m.sides durations 1 0

/-- The per-position side-index computation inside `Medium::on_same_side`:
`sides_used` starts at 0 and `current_sum` at 0; a track that fits on the
current side keeps the index, otherwise the index is incremented and the
running sum reset to the track's duration; the index after processing each
track is recorded. -/
def sideIndicesLoop (max : Duration) :
    List Track → ℕ → Duration → List ℕ
  | [], _, _ => []
  | t :: ts, sides_used, current_sum =>
    if current_sum + t.duration ≤ max then
      sides_used :: sideIndicesLoop max ts sides_used (current_sum + t.duration)
    else
      (sides_used + 1) :: sideIndicesLoop max ts (sides_used + 1) t.duration

/-- The side-index list computed by `Medium::on_same_side` (initial state
`sides_used = 0`, `current_sum = 0`). -/
def sideIndices (m : Medium) (tl : Tracklist) : List ℕ :=
  sideIndicesLoop m.max_duration_per_side tl 0 0

/-- `Medium::on_same_side`: recompute the side indices, look up the first
positions of the two titles, and compare their side indices; `false` when
either title is absent.  (The Rust code indexes `side_indices[i]` with `i`
returned by `position`, hence in bounds; modelled with `getD _ 0`.) -/
def Medium.on_same_side (m : Medium) (tl : Tracklist) (t1 t2 : String) : Bool :=
  let side_indices := sideIndices m tl
  let pos1 := tl.findIdx? (fun t => t.title == t1)
  let pos2 := tl.findIdx? (fun t => t.title == t2)
  match pos1, pos2 with
  | some i1, some i2 => side_indices.getD i1 0 == side_indices.getD i2 0
  | _, _ => false

/-- Kind of constraint (enum `ConstraintKind`). -/
inductive ConstraintKind where
  | AtPosition : String → ℕ → ConstraintKind
  | Adjacent : String → String → ConstraintKind
  | OnSameSide : String → String → ConstraintKind
deriving DecidableEq, Repr

/-- Constraint with explicit weight (struct `Constraint`). -/
structure Constraint where
  kind : ConstraintKind
  weight : ℕ
deriving DecidableEq, Repr

/-- The `Adjacent` arm of `score_tracklist`:
`tracklist.0.windows(2).any(|w| w[0].title == t1 && w[1].title == t2)`. -/
def adjacentHolds : Tracklist → String → String → Bool
  | t0 :: t1 :: rest, a, b =>
    (t0.title == a && t1.title == b) || adjacentHolds (t1 :: rest) a b
  | _, _, _ => false

/-- Satisfaction of one constraint kind, as dispatched inside
`score_tracklist`: `AtPosition` uses the `Option`-returning `get`,
`Adjacent` the windows scan, `OnSameSide` calls `Medium::on_same_side`. -/
def constraintSatisfied (tl : Tracklist) (m : Medium) :
    ConstraintKind → Bool
  | .AtPosition title pos =>
    match tl.get? pos with
    | some track => track.title == title
    | none => false
  | .Adjacent t1 t2 => adjacentHolds tl t1 t2
  | .OnSameSide t1 t2 => m.on_same_side tl t1 t2

/-- `score_tracklist`: fold over the constraints, adding each satisfied
constraint's weight to the accumulator starting from 0. -/
def score_tracklist (tl : Tracklist) (constraints : List Constraint)
    (m : Medium) : ℕ :=
  constraints.foldl
    (fun score c =>
      if constraintSatisfied tl m c.kind then score + c.weight else score)
    0

/-- The successive values of the `sides_used` variable after each iteration
of the greedy pass inside `Medium::fits` (initial state `sides_used = 1`,
`current_sum = 0`; the branch condition `current_sum + d <= max` is the one
in the source).  This records the pass that `fits` performs on a run where
no early return fires — in particular the run on any input where `fits`
returns `true`.  Since `sides_used` starts at 1 and is incremented exactly
at each side overflow, the number of overflows performed up to and
including position `i` is this list's entry at `i`, minus 1. -/
def fitsPassSidesUsed (max : Duration) :
    List Duration → ℕ → Duration → List ℕ
  | [], _, _ => []
  | d :: ds, sides_used, current_sum =>
    if current_sum + d ≤ max then
      sides_used :: fitsPassSidesUsed max ds sides_used (current_sum + d)
    else
      (sides_used + 1) :: fitsPassSidesUsed max ds (sides_used + 1) d

/-- Modelled from the spec: the `TracklistPermutations` iterator wraps
`itertools::permutations` (an external crate, not in this repository),
which for `k = tracks.len()` lazily yields every one of the `n!`
index-orderings of the input slice.  The full emitted sequence is modelled
as `List.permutations`. -/
def TracklistPermutations.toList (tracks : List Track) : List (List Track) :=
  tracks.permutations

/-! ### Scoring lemmas -/

lemma score_foldl_shift (tl : Tracklist) (m : Medium) (cs : List Constraint)
    (a : ℕ) :
    cs.foldl
        (fun s c => if constraintSatisfied tl m c.kind then s + c.weight else s)
        a
      = a + cs.foldl
        (fun s c => if constraintSatisfied tl m c.kind then s + c.weight else s)
        0 := by
  induction cs generalizing a with
  | nil => simp
  | cons c cs ih =>
    simp only [List.foldl_cons]
    rw [ih, ih (if constraintSatisfied tl m c.kind then 0 + c.weight else 0)]
    split_ifs <;> omega

lemma score_tracklist_cons (tl : Tracklist) (m : Medium) (c : Constraint)
    (cs : List Constraint) :
    score_tracklist tl (c :: cs) m
      = (if constraintSatisfied tl m c.kind then c.weight else 0)
        + score_tracklist tl cs m := by
  simp only [score_tracklist, List.foldl_cons]
  rw [score_foldl_shift]
  split_ifs <;> omega

/-- C5: `score_tracklist` equals the sum of the weights of the satisfied
constraints, is nonnegative, and is at most the sum of all weights. -/
theorem score_tracklist_eq_sum_and_bounded (tl : Tracklist)
    (cs : List Constraint) (m : Medium) :
    score_tracklist tl cs m
        = ((cs.filter fun c => constraintSatisfied tl m c.kind).map
            Constraint.weight).sum
      ∧ 0 ≤ score_tracklist tl cs m
      ∧ score_tracklist tl cs m ≤ (cs.map Constraint.weight).sum := by
  induction cs with
  | nil => simp [score_tracklist]
  | cons c cs ih =>
    obtain ⟨h1, _, h3⟩ := ih
    refine ⟨?_, Nat.zero_le _, ?_⟩
    · rw [score_tracklist_cons, h1]
      by_cases hc : constraintSatisfied tl m c.kind <;>
        simp [hc, List.filter_cons]
    · rw [score_tracklist_cons]
      simp only [List.map_cons, List.sum_cons]
      split_ifs <;> omega

/-- C6: scoring is additive over concatenation of constraint lists. -/
theorem score_tracklist_append (tl : Tracklist) (m : Medium)
    (cs1 cs2 : List Constraint) :
    score_tracklist tl (cs1 ++ cs2) m
      = score_tracklist tl cs1 m + score_tracklist tl cs2 m := by
  induction cs1 with
  | nil => simp [score_tracklist]
  | cons c cs ih =>
    rw [List.cons_append, score_tracklist_cons, ih, score_tracklist_cons]
    omega

/-- C7: `on_same_side` is symmetric in the two titles. -/
theorem on_same_side_symm (m : Medium) (tl : Tracklist) (a b : String) :
    m.on_same_side tl a b = m.on_same_side tl b a := by
  simp only [Medium.on_same_side]
  cases h1 : tl.findIdx? (fun t => t.title == a) <;>
    cases h2 : tl.findIdx? (fun t => t.title == b)
  · rfl
  · rfl
  · rfl
  · rw [Bool.eq_iff_iff]
    simp only [beq_iff_eq]
    exact eq_comm

/-! ### Absent titles, `sides`-independence, out-of-range positions -/

lemma findIdx_title_none (tl : Tracklist) (a : String)
    (h : ∀ t ∈ tl, t.title ≠ a) :
    tl.findIdx? (fun t => t.title == a) = none := by
  rw [List.findIdx?_eq_none_iff]
  intro t ht
  simpa using h t ht

/-- C8: a title absent from the tracklist makes `on_same_side` return
`false` (not an error), so an `OnSameSide` constraint naming it
contributes 0 to the score. -/
theorem on_same_side_absent (m : Medium) (tl : Tracklist) (a b : String)
    (w : ℕ)
    (h : (∀ t ∈ tl, t.title ≠ a) ∨ (∀ t ∈ tl, t.title ≠ b)) :
    m.on_same_side tl a b = false
      ∧ score_tracklist tl [⟨.OnSameSide a b, w⟩] m = 0 := by
  have hfalse : m.on_same_side tl a b = false := by
    simp only [Medium.on_same_side]
    rcases h with h | h
    · rw [findIdx_title_none tl a h]
    · rw [findIdx_title_none tl b h]
      cases tl.findIdx? (fun t => t.title == a) <;> rfl
  refine ⟨hfalse, ?_⟩
  rw [score_tracklist_cons]
  simp [constraintSatisfied, hfalse, score_tracklist]

theorem on_same_side_absent_witness :
    ((∀ t ∈ ([⟨"A", 1⟩] : Tracklist), t.title ≠ "B")
      ∨ (∀ t ∈ ([⟨"A", 1⟩] : Tracklist), t.title ≠ "A"))
    ∧ (Medium.on_same_side ⟨1, 10⟩ [⟨"A", 1⟩] "B" "A" = false
       ∧ score_tracklist [⟨"A", 1⟩] [⟨.OnSameSide "B" "A", 3⟩] ⟨1, 10⟩ = 0) :=
  ⟨by decide, on_same_side_absent ⟨1, 10⟩ [⟨"A", 1⟩] "B" "A" 3 (by decide)⟩

lemma on_same_side_congr_max (m m' : Medium)
    (h : m.max_duration_per_side = m'.max_duration_per_side)
    (tl : Tracklist) (a b : String) :
    m.on_same_side tl a b = m'.on_same_side tl a b := by
  simp only [Medium.on_same_side, sideIndices, h]

lemma constraintSatisfied_congr_max (m m' : Medium)
    (h : m.max_duration_per_side = m'.max_duration_per_side)
    (tl : Tracklist) :
    ∀ k, constraintSatisfied tl m k = constraintSatisfied tl m' k
  | .AtPosition _ _ => rfl
  | .Adjacent _ _ => rfl
  | .OnSameSide t1 t2 => on_same_side_congr_max m m' h tl t1 t2

/-- C9: neither `on_same_side` nor `score_tracklist` reads the medium's
`sides` field — two media with equal `max_duration_per_side` give the same
boolean and the same score; and concretely an `OnSameSide` pair can hold on
a tracklist that does not fit the medium. -/
theorem score_ignores_sides (tl : Tracklist) (cs : List Constraint)
    (a b : String) (m m' : Medium)
    (h : m.max_duration_per_side = m'.max_duration_per_side) :
    m.on_same_side tl a b = m'.on_same_side tl a b
    ∧ score_tracklist tl cs m = score_tracklist tl cs m'
    ∧ (Medium.on_same_side ⟨1, 10⟩ [⟨"A", 6⟩, ⟨"B", 4⟩, ⟨"C", 10⟩] "A" "B"
          = true
       ∧ Medium.fits ⟨1, 10⟩ [⟨"A", 6⟩, ⟨"B", 4⟩, ⟨"C", 10⟩] = false) := by
  have hconc1 : Medium.on_same_side ⟨1, 10⟩
      [⟨"A", 6⟩, ⟨"B", 4⟩, ⟨"C", 10⟩] "A" "B" = true := by
    norm_num [Medium.on_same_side, sideIndices, sideIndicesLoop,
      List.findIdx?_cons]
    decide
  have hconc2 : Medium.fits ⟨1, 10⟩ [⟨"A", 6⟩, ⟨"B", 4⟩, ⟨"C", 10⟩]
      = false := by
    norm_num [Medium.fits, fitsLoop, tracklistDuration]
  refine ⟨on_same_side_congr_max m m' h tl a b, ?_, hconc1, hconc2⟩
  induction cs with
  | nil => rfl
  | cons c cs ih =>
    rw [score_tracklist_cons, score_tracklist_cons, ih,
      constraintSatisfied_congr_max m m' h tl c.kind]

theorem score_ignores_sides_witness :
    ((Medium.mk 1 10).max_duration_per_side
        = (Medium.mk 5 10).max_duration_per_side)
    ∧ ((Medium.mk 1 10).on_same_side [⟨"A", 2⟩, ⟨"B", 3⟩] "A" "B"
          = (Medium.mk 5 10).on_same_side [⟨"A", 2⟩, ⟨"B", 3⟩] "A" "B"
       ∧ score_tracklist [⟨"A", 2⟩, ⟨"B", 3⟩] [⟨.Adjacent "A" "B", 4⟩]
            (Medium.mk 1 10)
          = score_tracklist [⟨"A", 2⟩, ⟨"B", 3⟩] [⟨.Adjacent "A" "B", 4⟩]
            (Medium.mk 5 10)
       ∧ (Medium.on_same_side ⟨1, 10⟩ [⟨"A", 6⟩, ⟨"B", 4⟩, ⟨"C", 10⟩] "A" "B"
            = true
          ∧ Medium.fits ⟨1, 10⟩ [⟨"A", 6⟩, ⟨"B", 4⟩, ⟨"C", 10⟩] = false)) :=
  ⟨rfl, score_ignores_sides [⟨"A", 2⟩, ⟨"B", 3⟩]
    [⟨.Adjacent "A" "B", 4⟩] "A" "B" (Medium.mk 1 10) (Medium.mk 5 10)
    rfl⟩

/-- C10: an `AtPosition` constraint whose index is at least the tracklist
length is evaluated through the `Option`-returning lookup as unsatisfied
and contributes 0 to the score. -/
theorem atPosition_out_of_range (tl : Tracklist) (title : String)
    (pos w : ℕ) (cs : List Constraint) (m : Medium)
    (h : tl.length ≤ pos) :
    constraintSatisfied tl m (.AtPosition title pos) = false
    ∧ score_tracklist tl (⟨.AtPosition title pos, w⟩ :: cs) m
        = score_tracklist tl cs m := by
  have hget : tl[pos]? = none := List.getElem?_eq_none h
  have hsat : constraintSatisfied tl m (.AtPosition title pos) = false := by
    simp [constraintSatisfied, hget]
  refine ⟨hsat, ?_⟩
  rw [score_tracklist_cons]
  simp [hsat]

theorem atPosition_out_of_range_witness :
    (([⟨"A", 1⟩] : Tracklist).length ≤ 5)
    ∧ (constraintSatisfied [⟨"A", 1⟩] ⟨1, 10⟩ (.AtPosition "A" 5) = false
       ∧ score_tracklist [⟨"A", 1⟩] [⟨.AtPosition "A" 5, 2⟩] ⟨1, 10⟩
            = score_tracklist [⟨"A", 1⟩] [] ⟨1, 10⟩) :=
  ⟨by decide,
    atPosition_out_of_range [⟨"A", 1⟩] "A" 5 2 [] ⟨1, 10⟩ (by decide)⟩

/-! ### Single track longer than a side -/

lemma fitsLoop_false_of_long (max : Duration) (s : ℕ) :
    ∀ (ds : List Duration) (su : ℕ) (cur : Duration),
      (∃ d ∈ ds, max < d) → fitsLoop max s ds su cur = false := by
  intro ds
  induction ds with
  | nil =>
    rintro su cur ⟨d, hd, -⟩
    cases hd
  | cons d ds ih =>
    rintro su cur ⟨d', hd', hlt⟩
    simp only [fitsLoop]
    by_cases h1 : max < d
    · simp [h1]
    · have hd'' : d' ∈ ds := by
        rcases List.mem_cons.mp hd' with rfl | hmem
        · exact absurd hlt h1
        · exact hmem
      rw [if_neg h1]
      split_ifs with h2 h3
      · exact ih _ _ ⟨d', hd'', hlt⟩
      · rfl
      · exact ih _ _ ⟨d', hd'', hlt⟩

/-- C2: a single track longer than `max_duration_per_side` forces `fits`
to return `false`, whatever the other tracks and the side count. -/
theorem fits_false_of_long_track (m : Medium) (tl : Tracklist)
    (h : ∃ t ∈ tl, m.max_duration_per_side < t.duration) :
    m.fits tl = false := by
  simp only [Medium.fits]
  split
  · rfl
  · apply fitsLoop_false_of_long
    obtain ⟨t, ht, hlt⟩ := h
    exact ⟨t.duration, List.mem_map_of_mem _ ht, hlt⟩

theorem fits_false_of_long_track_witness :
    (∃ t ∈ ([⟨"A", 21⟩, ⟨"B", 5⟩] : Tracklist),
        (Medium.mk 2 20).max_duration_per_side < t.duration)
    ∧ (Medium.mk 2 20).fits [⟨"A", 21⟩, ⟨"B", 5⟩] = false :=
  ⟨by decide,
    fits_false_of_long_track (Medium.mk 2 20) [⟨"A", 21⟩, ⟨"B", 5⟩]
      (by decide)⟩

/-! ### Monotonicity of `fits` in medium capacity -/

/-- Core invariant for monotonicity of the greedy pass: the run with the
larger capacity is never behind — it has used no more sides, and when it
has used exactly as many its current side is no fuller. -/
lemma fitsLoop_mono (c c' : ℚ) (s s' : ℕ) (hcc : c ≤ c') (hss : s ≤ s') :
    ∀ (ds : List ℚ), (∀ d ∈ ds, 0 ≤ d) →
      ∀ (su su' : ℕ) (cs cs' : ℚ), 0 ≤ cs → 0 ≤ cs' →
        su ≤ s → su' ≤ su → (su' < su ∨ cs' ≤ cs) →
        fitsLoop c s ds su cs = true → fitsLoop c' s' ds su' cs' = true := by
  intro ds
  induction ds with
  | nil => intro _ su su' cs cs' _ _ _ _ _ _; rfl
  | cons d ds ih =>
    intro hnn su su' cs cs' h0cs h0cs' hsus hsu' hdisj h
    have hd0 : 0 ≤ d := hnn d (List.mem_cons_self d ds)
    have hnn' : ∀ x ∈ ds, 0 ≤ x := fun x hx => hnn x (List.mem_cons_of_mem d hx)
    simp only [fitsLoop] at h ⊢
    by_cases h1 : c < d
    · simp [h1] at h
    · have h1' : ¬ c' < d := by
        push_neg at h1 ⊢
        linarith
      rw [if_neg h1] at h
      rw [if_neg h1']
      by_cases h2 : cs + d ≤ c
      · rw [if_pos h2] at h
        by_cases g2 : cs' + d ≤ c'
        · rw [if_pos g2]
          exact ih hnn' su su' _ _ (by linarith) (by linarith) hsus hsu'
            (hdisj.imp id fun hle => by linarith) h
        · have hlt : su' < su := by
            rcases hdisj with hlt | hle
            · exact hlt
            · exact absurd (by linarith : cs' + d ≤ c') g2
          rw [if_neg g2, if_neg (by omega : ¬ s' < su' + 1)]
          exact ih hnn' su (su' + 1) _ d (by linarith) hd0 hsus (by omega)
            (Or.inr (by linarith)) h
      · rw [if_neg h2] at h
        by_cases h3 : s < su + 1
        · simp [h3] at h
        · rw [if_neg h3] at h
          have hsus1 : su + 1 ≤ s := by omega
          by_cases g2 : cs' + d ≤ c'
          · rw [if_pos g2]
            exact ih hnn' (su + 1) su' d _ hd0 (by linarith) hsus1 (by omega)
              (Or.inl (by omega)) h
          · rw [if_neg g2, if_neg (by omega : ¬ s' < su' + 1)]
            exact ih hnn' (su + 1) (su' + 1) d d hd0 hd0 hsus1 (by omega)
              (Or.inr le_rfl) h

/-- C1: with nonnegative track durations and a well-formed medium (at
least one side, nonnegative per-side capacity, per the data model),
enlarging the medium — no fewer sides and no smaller per-side capacity —
preserves `fits = true`. -/
theorem fits_mono (tl : Tracklist) (m m' : Medium)
    (hnn : ∀ t ∈ tl, 0 ≤ t.duration)
    (hc0 : 0 ≤ m.max_duration_per_side)
    (hs1 : 1 ≤ m.sides)
    (hs : m.sides ≤ m'.sides)
    (hc : m.max_duration_per_side ≤ m'.max_duration_per_side)
    (hfit : m.fits tl = true) : m'.fits tl = true := by
  simp only [Medium.fits] at hfit ⊢
  have hnn' : ∀ d ∈ tl.map Track.duration, 0 ≤ d := by
    intro d hd
    obtain ⟨t, ht, rfl⟩ := List.mem_map.mp hd
    exact hnn t ht
  split at hfit
  · exact absurd hfit (by simp)
  · have htot : tracklistDuration tl
        ≤ (m.sides : ℚ) * m.max_duration_per_side := by
      linarith [not_lt.mp (by assumption :
        ¬ (m.sides : ℚ) * m.max_duration_per_side < tracklistDuration tl)]
    have hmul : (m.sides : ℚ) * m.max_duration_per_side
        ≤ (m'.sides : ℚ) * m'.max_duration_per_side := by
      have h1 : (m.sides : ℚ) ≤ (m'.sides : ℚ) := Nat.cast_le.mpr hs
      have h2 : (0 : ℚ) ≤ (m'.sides : ℚ) := Nat.cast_nonneg _
      exact mul_le_mul h1 hc hc0 h2
    rw [if_neg (not_lt.mpr (le_trans htot hmul))]
    exact fitsLoop_mono m.max_duration_per_side m'.max_duration_per_side
      m.sides m'.sides hc hs (tl.map Track.duration) hnn' 1 1 0 0 le_rfl
      le_rfl hs1 le_rfl (Or.inr le_rfl) hfit

theorem fits_mono_witness :
    ((∀ t ∈ ([⟨"A", 3⟩, ⟨"B", 2⟩] : Tracklist), 0 ≤ t.duration)
      ∧ 0 ≤ (Medium.mk 1 5).max_duration_per_side
      ∧ 1 ≤ (Medium.mk 1 5).sides
      ∧ (Medium.mk 1 5).sides ≤ (Medium.mk 2 6).sides
      ∧ (Medium.mk 1 5).max_duration_per_side
          ≤ (Medium.mk 2 6).max_duration_per_side
      ∧ (Medium.mk 1 5).fits [⟨"A", 3⟩, ⟨"B", 2⟩] = true)
    ∧ (Medium.mk 2 6).fits [⟨"A", 3⟩, ⟨"B", 2⟩] = true := by
  have h1 : (Medium.mk 1 5).fits [⟨"A", 3⟩, ⟨"B", 2⟩] = true := by
    norm_num [Medium.fits, fitsLoop, tracklistDuration]
  have h2 : ∀ t ∈ ([⟨"A", 3⟩, ⟨"B", 2⟩] : Tracklist), 0 ≤ t.duration := by
    intro t ht
    fin_cases ht <;> norm_num
  have h3 : (0 : ℚ) ≤ 5 := by norm_num
  have h4 : (5 : ℚ) ≤ 6 := by norm_num
  exact ⟨⟨h2, h3, le_rfl, by norm_num, h4, h1⟩,
    fits_mono [⟨"A", 3⟩, ⟨"B", 2⟩] (Medium.mk 1 5) (Medium.mk 2 6)
      h2 h3 le_rfl (by norm_num) h4 h1⟩

/-! ### Agreement of `on_same_side`'s recomputed assignment with `fits` -/

lemma sideIndicesLoop_map_succ (max : Duration) :
    ∀ (ts : List Track) (su : ℕ) (cs : Duration),
      (sideIndicesLoop max ts su cs).map (· + 1)
        = fitsPassSidesUsed max (ts.map Track.duration) (su + 1) cs := by
  intro ts
  induction ts with
  | nil => intro su cs; rfl
  | cons t ts ih =>
    intro su cs
    simp only [sideIndicesLoop, List.map_cons, fitsPassSidesUsed]
    split_ifs with h
    · simp [ih]
    · simp [ih]

lemma sideIndicesLoop_length (max : Duration) :
    ∀ (ts : List Track) (su : ℕ) (cs : Duration),
      (sideIndicesLoop max ts su cs).length = ts.length := by
  intro ts
  induction ts with
  | nil => intro su cs; rfl
  | cons t ts ih =>
    intro su cs
    simp only [sideIndicesLoop]
    split_ifs <;> simp [ih]

/-- Along a run where `fits`' greedy pass succeeds, every recorded
`sides_used` value stays within the side count. -/
lemma fitsPassSidesUsed_le (max : Duration) (s : ℕ) :
    ∀ (ds : List Duration) (su : ℕ) (cs : Duration), su ≤ s →
      fitsLoop max s ds su cs = true →
      ∀ x ∈ fitsPassSidesUsed max ds su cs, x ≤ s := by
  intro ds
  induction ds with
  | nil =>
    intro su cs _ _ x hx
    cases hx
  | cons d ds ih =>
    intro su cs hsu h x hx
    simp only [fitsLoop] at h
    by_cases h1 : max < d
    · simp [h1] at h
    · rw [if_neg h1] at h
      simp only [fitsPassSidesUsed] at hx
      by_cases h2 : cs + d ≤ max
      · rw [if_pos h2] at h
        rw [if_pos h2] at hx
        rcases List.mem_cons.mp hx with rfl | hx'
        · exact hsu
        · exact ih su (cs + d) hsu h x hx'
      · rw [if_neg h2] at h
        by_cases h3 : s < su + 1
        · simp [h3] at h
        · rw [if_neg h3] at h
          rw [if_neg h2] at hx
          rcases List.mem_cons.mp hx with rfl | hx'
          · omega
          · exact ih (su + 1) d (by omega) h x hx'

/-- C3: when `fits` accepts, the side assignment recomputed inside
`on_same_side` agrees with `fits`' own greedy pass — position `i`'s 0-based
side index is one less than the `sides_used` value of `fits`' pass there
(that is, the number of overflows performed up to and including `i`), and
every index is strictly below the medium's side count. -/
theorem sideIndices_refines_fits (m : Medium) (tl : Tracklist)
    (hs1 : 1 ≤ m.sides) (hfit : m.fits tl = true) :
    ∀ i, i < tl.length →
      (sideIndices m tl).getD i 0 + 1
        = (fitsPassSidesUsed m.max_duration_per_side (tl.map Track.duration)
            1 0).getD i 0
      ∧ (sideIndices m tl).getD i 0 < m.sides := by
  have hloop : fitsLoop m.max_duration_per_side m.sides
      (tl.map Track.duration) 1 0 = true := by
    simp only [Medium.fits] at hfit
    split at hfit
    · exact absurd hfit (by simp)
    · exact hfit
  have hshift' : (sideIndices m tl).map (· + 1)
      = fitsPassSidesUsed m.max_duration_per_side (tl.map Track.duration)
          1 0 := by
    simpa [sideIndices] using
      sideIndicesLoop_map_succ m.max_duration_per_side tl 0 0
  intro i hi
  have hlenL : (sideIndices m tl).length = tl.length :=
    sideIndicesLoop_length m.max_duration_per_side tl 0 0
  have hiL : i < (sideIndices m tl).length := by rw [hlenL]; exact hi
  have hlenT : (fitsPassSidesUsed m.max_duration_per_side
      (tl.map Track.duration) 1 0).length = tl.length := by
    rw [← hshift', List.length_map, hlenL]
  have hiT : i < (fitsPassSidesUsed m.max_duration_per_side
      (tl.map Track.duration) 1 0).length := by rw [hlenT]; exact hi
  have hsome : (fitsPassSidesUsed m.max_duration_per_side
        (tl.map Track.duration) 1 0)[i]?
      = some ((sideIndices m tl).getD i 0 + 1) := by
    rw [← hshift', List.getElem?_map, List.getElem?_eq_getElem hiL,
      List.getD_eq_getElem _ _ hiL]
    rfl
  have hTi : (fitsPassSidesUsed m.max_duration_per_side
        (tl.map Track.duration) 1 0).getD i 0
      = (sideIndices m tl).getD i 0 + 1 := by
    rw [List.getD_eq_getElem _ _ hiT]
    exact Option.some.inj ((List.getElem?_eq_getElem hiT).symm.trans hsome)
  have hmem : (fitsPassSidesUsed m.max_duration_per_side
        (tl.map Track.duration) 1 0).getD i 0
      ∈ fitsPassSidesUsed m.max_duration_per_side
        (tl.map Track.duration) 1 0 := by
    rw [List.getD_eq_getElem _ _ hiT]
    exact List.getElem_mem hiT
  have hbound := fitsPassSidesUsed_le m.max_duration_per_side m.sides
    (tl.map Track.duration) 1 0 hs1 hloop _ hmem
  refine ⟨hTi.symm, ?_⟩
  omega

theorem sideIndices_refines_fits_witness :
    (1 ≤ (Medium.mk 2 20).sides
      ∧ (Medium.mk 2 20).fits
          [⟨"A", 10⟩, ⟨"B", 8⟩, ⟨"C", 12⟩, ⟨"D", 7⟩] = true)
    ∧ (∀ i, i < ([⟨"A", 10⟩, ⟨"B", 8⟩, ⟨"C", 12⟩, ⟨"D", 7⟩] :
          Tracklist).length →
        (sideIndices (Medium.mk 2 20)
            [⟨"A", 10⟩, ⟨"B", 8⟩, ⟨"C", 12⟩, ⟨"D", 7⟩]).getD i 0 + 1
          = (fitsPassSidesUsed (Medium.mk 2 20).max_duration_per_side
              (([⟨"A", 10⟩, ⟨"B", 8⟩, ⟨"C", 12⟩, ⟨"D", 7⟩] :
                Tracklist).map Track.duration) 1 0).getD i 0
        ∧ (sideIndices (Medium.mk 2 20)
            [⟨"A", 10⟩, ⟨"B", 8⟩, ⟨"C", 12⟩, ⟨"D", 7⟩]).getD i 0
          < (Medium.mk 2 20).sides) := by
  have hfit : (Medium.mk 2 20).fits
      [⟨"A", 10⟩, ⟨"B", 8⟩, ⟨"C", 12⟩, ⟨"D", 7⟩] = true := by
    norm_num [Medium.fits, fitsLoop, tracklistDuration]
  exact ⟨⟨by norm_num, hfit⟩,
    sideIndices_refines_fits (Medium.mk 2 20)
      [⟨"A", 10⟩, ⟨"B", 8⟩, ⟨"C", 12⟩, ⟨"D", 7⟩] (by norm_num) hfit⟩

/-! ### Completeness of the permutation generator -/

/-- Any permutation of a mapped list is the image of a permutation of the
original list. -/
lemma exists_map_eq_of_perm_map {α β : Type _} (f : α → β) {a b : List β}
    (p : a.Perm b) :
    ∀ l : List α, b = l.map f → ∃ l₀ : List α, l₀.Perm l ∧ l₀.map f = a := by
  induction p with
  | nil =>
    intro l hl
    have hnil : l = [] := List.map_eq_nil_iff.mp hl.symm
    subst hnil
    exact ⟨[], List.Perm.refl [], rfl⟩
  | cons x p ih =>
    intro l hl
    cases l with
    | nil => simp at hl
    | cons y l' =>
      simp only [List.map_cons] at hl
      injection hl with hx hb
      obtain ⟨l₀, hp, hm⟩ := ih l' hb
      exact ⟨y :: l₀, hp.cons y, by simp [hm, ← hx]⟩
  | swap x y t =>
    intro l hl
    cases l with
    | nil => simp at hl
    | cons u l1 =>
      cases l1 with
      | nil => simp at hl
      | cons v l2 =>
        simp only [List.map_cons] at hl
        injection hl with h1 hl'
        injection hl' with h2 h3
        refine ⟨v :: u :: l2, List.Perm.swap u v l2, ?_⟩
        simp [← h1, ← h2, ← h3]
  | trans p1 p2 ih1 ih2 =>
    intro l hl
    obtain ⟨lc, hpc, hmc⟩ := ih2 l hl
    obtain ⟨l₀, hp0, hm0⟩ := ih1 lc hmc.symm
    exact ⟨l₀, hp0.trans hpc, hm0⟩

/-- Two lists of elements drawn from `S` on which `f` is injective are
equal as soon as their images under `f` are equal. -/
lemma map_eq_map_of_mem_inj {α β : Type _} (f : α → β) (S : List α)
    (hinj : ∀ x ∈ S, ∀ y ∈ S, f x = f y → x = y) :
    ∀ (p q : List α), (∀ x ∈ p, x ∈ S) → (∀ x ∈ q, x ∈ S) →
      p.map f = q.map f → p = q := by
  intro p
  induction p with
  | nil =>
    intro q _ _ h
    cases q with
    | nil => rfl
    | cons y q => simp at h
  | cons x p ih =>
    intro q hp hq h
    cases q with
    | nil => simp at h
    | cons y q =>
      simp only [List.map_cons] at h
      injection h with h1 h2
      have hxy : x = y :=
        hinj x (hp x (List.mem_cons_self x p)) y
          (hq y (List.mem_cons_self y q)) h1
      subst hxy
      rw [ih q (fun z hz => hp z (List.mem_cons_of_mem _ hz))
        (fun z hz => hq z (List.mem_cons_of_mem _ hz)) h2]

/-- C4: on a track set with pairwise-distinct titles the generator emits
exactly `n!` tracklists whose title-sequences are precisely the orderings
of the input titles, without duplicates. -/
theorem generate_permutations_complete (tracks : List Track)
    (hnd : (tracks.map Track.title).Nodup) :
    (TracklistPermutations.toList tracks).length = Nat.factorial tracks.length
    ∧ (∀ ts : List String,
        ts ∈ (TracklistPermutations.toList tracks).map
            (fun p => p.map Track.title)
          ↔ ts.Perm (tracks.map Track.title))
    ∧ ((TracklistPermutations.toList tracks).map
        (fun p => p.map Track.title)).Nodup := by
  refine ⟨List.length_permutations tracks, ?_, ?_⟩
  · intro ts
    constructor
    · intro hts
      obtain ⟨p, hp, rfl⟩ := List.mem_map.mp hts
      exact (List.mem_permutations.mp hp).map Track.title
    · intro hts
      obtain ⟨l₀, hl₀, hm⟩ :=
        exists_map_eq_of_perm_map Track.title hts tracks rfl
      exact List.mem_map.mpr ⟨l₀, List.mem_permutations.mpr hl₀, hm⟩
  · have htnd : tracks.Nodup := List.Nodup.of_map Track.title hnd
    have hinj := List.inj_on_of_nodup_map hnd
    exact List.Nodup.map_on
      (fun p hp q hq hpq =>
        map_eq_map_of_mem_inj Track.title tracks hinj p q
          (fun x hx => (List.mem_permutations.mp hp).subset hx)
          (fun x hx => (List.mem_permutations.mp hq).subset hx) hpq)
      (List.nodup_permutations tracks htnd)

theorem generate_permutations_complete_witness :
    (([⟨"A", 1⟩, ⟨"B", 2⟩] : List Track).map Track.title).Nodup
    ∧ ((TracklistPermutations.toList [⟨"A", 1⟩, ⟨"B", 2⟩]).length
          = Nat.factorial ([⟨"A", 1⟩, ⟨"B", 2⟩] : List Track).length
      ∧ (∀ ts : List String,
          ts ∈ (TracklistPermutations.toList [⟨"A", 1⟩, ⟨"B", 2⟩]).map
              (fun p => p.map Track.title)
            ↔ ts.Perm (([⟨"A", 1⟩, ⟨"B", 2⟩] : List Track).map Track.title))
      ∧ ((TracklistPermutations.toList [⟨"A", 1⟩, ⟨"B", 2⟩]).map
          (fun p => p.map Track.title)).Nodup) :=
  ⟨by decide, generate_permutations_complete [⟨"A", 1⟩, ⟨"B", 2⟩] (by decide)⟩

end Albumseq

